import Mathlib

/-!
Verification of the static-semantics core of the millet SML analyzer.

The development shallowly embeds the data model and operations of the
`sml-statics` crate (overloads, `Syms`, `Subst`) and of the legacy
`core` crate's enrichment check, and proves properties about them.
Definitions come first, theorems afterwards.
-/

set_option autoImplicit false

namespace Millet

/-! ## Association-list helpers

`FxHashMap` insertion (replace-or-append) and lookup, used to model the
hash maps of the source. Keys are `Nat` (meta-variable / symbol ids) or
`String` (names).
-/

def lookupKey {α : Type} (k : Nat) : List (Nat × α) → Option α
  | [] => none
  | (k', v) :: rest => if k' = k then some v else lookupKey k rest

def insertKey {α : Type} (k : Nat) (v : α) : List (Nat × α) → List (Nat × α)
  | [] => [(k, v)]
  | (k', v') :: rest =>
    if k' = k then (k', v) :: rest else (k', v') :: insertKey k v rest

/-- In-place update of the element at index `i` (`&mut v[i]` on a `Vec`);
out-of-bounds indices leave the list unchanged. -/
def modifyAt {α : Type} : List α → Nat → (α → α) → List α
  | [], _, _ => []
  | x :: rest, 0, f => f x :: rest
  | x :: rest, Nat.succ i, f => x :: modifyAt rest i f

/-- Lookup in a name-keyed map, modelled as its entry list. -/
def lookupName {α : Type} (k : String) : List (String × α) → Option α
  | [] => none
  | (k', v) :: rest => if k' = k then some v else lookupName k rest

/-- The keys of a name-keyed map, in iteration order. -/
def keysOf {α : Type} (l : List (String × α)) : List String :=
  l.map Prod.fst

/-- The map's keys are strictly increasing: the canonical iteration order of
an ordered map (`BTreeMap`). -/
def SortedKeys {α : Type} (l : List (String × α)) : Prop :=
  l.Pairwise (fun a b => a.1 < b.1)

/-- `BTreeMap::insert`: ordered insertion, replacing an equal key. -/
def insertSorted {α : Type} (k : String) (v : α) :
    List (String × α) → List (String × α)
  | [] => [(k, v)]
  | (k', v') :: rest =>
    if k = k' then (k, v) :: rest
    else if k < k' then (k, v) :: (k', v') :: rest
    else (k', v') :: insertSorted k v rest

/-! ## Overloaded types

From `crates/sml-statics/src/types/overload.rs`.
-/

/-- `overload::Basic`: the five basic overload classes. -/
inductive Basic where
  | int
  | real
  | word
  | string
  | char
deriving DecidableEq, Fintype, Repr

/-- `overload::Composite`: composite overload classes. `numTxtEq` is the
equality-only subset of `NumTxt`, used only for unification. -/
inductive Composite where
  | wordInt
  | realInt
  | num
  | numTxt
  | numTxtEq
deriving DecidableEq, Fintype, Repr

namespace Composite

/-- `Composite::as_basics`. -/
def as_basics : Composite → List Basic
  | .wordInt => [.word, .int]
  | .realInt => [.real, .int]
  | .num => [.word, .real, .int]
  | .numTxt => [.word, .real, .int, .string, .char]
  | .numTxtEq => [.word, .int, .string, .char]

end Composite

/-- `overload::Overload`. -/
inductive Overload where
  | basic (b : Basic)
  | composite (c : Composite)
deriving DecidableEq, Fintype, Repr

/-- `Composite::unify`: the exhaustive intersection table. -/
def Composite.unify : Composite → Composite → Overload
  | .wordInt, .wordInt | .wordInt, .num | .wordInt, .numTxt
  | .num, .wordInt | .numTxt, .wordInt => .composite .wordInt
  | .wordInt, .realInt | .numTxtEq, .realInt
  | .realInt, .wordInt | .realInt, .numTxtEq => .basic .int
  | .realInt, .realInt | .realInt, .num | .realInt, .numTxt
  | .num, .realInt | .numTxt, .realInt => .composite .realInt
  | .num, .num | .num, .numTxt | .numTxt, .num => .composite .num
  | .numTxt, .numTxt => .composite .numTxt
  | .numTxtEq, .numTxtEq | .numTxtEq, .numTxt | .numTxt, .numTxtEq =>
    .composite .numTxtEq
  | .numTxtEq, .wordInt | .numTxtEq, .num
  | .wordInt, .numTxtEq | .num, .numTxtEq => .composite .wordInt

namespace Overload

/-- `Overload::as_basics`. -/
def as_basics : Overload → List Basic
  | .basic b => [b]
  | .composite c => c.as_basics

/-- `Overload::unify`: returns `none` iff the overloads could not be unified. -/
def unify : Overload → Overload → Option Overload
  | .basic b1, .basic b2 => if b1 = b2 then some (.basic b1) else none
  | .basic b, .composite c | .composite c, .basic b =>
    (c.as_basics.find? (fun x => x = b)).map .basic
  | .composite c1, .composite c2 => some (c1.unify c2)

end Overload

end Millet

namespace Millet.SmlStatics

/-! ## Types of the `sml-statics` crate

From `crates/sml-statics/src/types.rs`. Identities handed out densely by
stores (`Sym`, `MetaTyVar`, `FixedTyVar`, `BoundTyVar`, `Exn`, `sml_hir`
paths and defs) are modelled as `Nat` / `String` data.
-/

/-- `sml_hir::Lab`: a record label, either a name or a positive number. -/
inductive Lab where
  | labName (s : String)
  | labNum (n : Nat)
deriving DecidableEq, Repr

/-- `Ty` from `sml-statics/src/types.rs`. A `RecordTy` (`BTreeMap<Lab, Ty>`)
is modelled as its entry list. -/
inductive Ty where
  | none
  | boundVar (bv : Nat)
  | metaVar (mv : Nat)
  | fixedVar (fv : Nat)
  | record (rows : List (Lab × Ty))
  | con (args : List Ty) (sym : Nat)
  | fn (param : Ty) (res : Ty)
deriving Repr

/-- `TyVarKind`. The `Nat` on `record` stands for the `sml_hir::Idx` kept for
error reporting. -/
inductive TyVarKind where
  | equality
  | overloaded (ov : Overload)
  | record (rows : List (Lab × Ty)) (idx : Nat)
deriving Repr

/-- `SubstEntry`: a meta variable is either solved to a type or constrained
to a kind. -/
inductive SubstEntry where
  | solved (ty : Ty)
  | kind (k : TyVarKind)
deriving Repr

/-- `MetaVarInfo` and the entry map of `Subst`; both `FxHashMap`s keyed by
meta variable, modelled as association lists with replace-or-append
insertion. -/
structure Subst where
  mv_info : List (Nat × TyVarKind)
  entries : List (Nat × SubstEntry)
deriving Repr

namespace Subst

/-- `Subst::get`. -/
def get (s : Subst) (mv : Nat) : Option SubstEntry :=
  lookupKey mv s.entries

/-- `Subst::insert`: records the kind in `mv_info` when the entry is a kind,
then inserts into `entries`, returning the previous entry (the return value
of `HashMap::insert`). -/
def insert (s : Subst) (mv : Nat) (entry : SubstEntry) :
    Subst × Option SubstEntry :=
  let mvInfo :=
    match entry with
    | .solved _ => s.mv_info
    | .kind k => insertKey mv k s.mv_info
  (⟨mvInfo, insertKey mv entry s.entries⟩, lookupKey mv s.entries)

/-- The solution recorded for `mv`, if any. -/
def solvedAt (s : Subst) (mv : Nat) : Option Ty :=
  match s.get mv with
  | some (.solved t) => some t
  | _ => none

/-- Applying a list of `insert` operations in order. -/
def applyInserts (s : Subst) : List (Nat × SubstEntry) → Subst
  | [] => s
  | (mv, e) :: rest => ((s.insert mv e).1).applyInserts rest

/-- Every `insert` in the list satisfies the documented precondition: its
meta variable is not already solved when the insert happens. -/
def PrecondOK (s : Subst) : List (Nat × SubstEntry) → Prop
  | [] => True
  | (mv, e) :: rest => s.solvedAt mv = none ∧ ((s.insert mv e).1).PrecondOK rest

end Subst

/-! ### Syms: generative type-constructor identities -/

/-- `Equality`: equality admissibility of a type constructor. -/
inductive Equality where
  | always
  | sometimes
  | never
deriving DecidableEq, Repr

/-- `TyScheme`: bound-variable kinds (`BoundTyVars`) plus body. -/
structure TyScheme where
  bound_vars : List (Option TyVarKind)
  ty : Ty
deriving Repr

/-- `TyScheme::zero`: a scheme binding zero variables. -/
def TyScheme.zero (ty : Ty) : TyScheme := ⟨[], ty⟩

/-- `IdStatus`; the `Nat` on `exn` is the `Exn` index. -/
inductive IdStatus where
  | con
  | exn (e : Nat)
  | val
deriving DecidableEq, Repr

/-- `ValInfo`. `defs` is the `FxHashSet<def::Def>` of definition sites and
`disallow` the optional `Disallow` marker; both are external identity-only
data modelled as `Nat` tokens. -/
structure ValInfo where
  ty_scheme : TyScheme
  id_status : IdStatus
  defs : List Nat
  disallow : Option Nat
deriving Repr

/-- `ValEnv = StackMap<Name, ValInfo>`. -/
abbrev ValEnv := List (String × ValInfo)

/-- `TyInfo`. The field `defn` models the Rust field `def` (a Lean keyword). -/
structure TyInfo where
  ty_scheme : TyScheme
  val_env : ValEnv
  defn : Option Nat
  disallow : Option Nat
deriving Repr

/-- `sml_hir::Path`: a non-empty dotted name path. -/
abbrev Path := List String

/-- `SymInfo`: what the `Syms` store records per generated `Sym`. -/
structure SymInfo where
  path : Path
  ty_info : TyInfo
  equality : Equality
deriving Repr

/-- `ExnInfo`: what the `Syms` store records per generated exception. -/
structure ExnInfo where
  path : Path
  param : Option Ty
deriving Repr

/-- `Overloads`: per basic overload class, the admissible `Sym`s. -/
structure Overloads where
  int : List Nat
  real : List Nat
  word : List Nat
  string : List Nat
  char : List Nat
deriving Repr

/-- `def::PrimitiveKind`, as far as the primitive syms use it. -/
inductive PrimitiveKind where
  | exn
  | int
  | word
  | real
  | char
  | string
  | bool
  | list
  | refTy
deriving DecidableEq, Repr

namespace Sym

/-- The reserved primitive `Sym`s from `mk_special_syms!`
(`@sync(special_sym_order)`). A `Sym` is its raw dense index. -/
def EXN : Nat := 0

def INT : Nat := 1

def WORD : Nat := 2

def REAL : Nat := 3

def CHAR : Nat := 4

def STRING : Nat := 5

def BOOL : Nat := 6

def LIST : Nat := 7

def REF : Nat := 8

/-- `Sym::primitive`, as expanded from `mk_special_syms!`. -/
def primitive (sym : Nat) : Option PrimitiveKind :=
  if sym = EXN then some .exn
  else if sym = INT then some .int
  else if sym = WORD then some .word
  else if sym = REAL then some .real
  else if sym = CHAR then some .char
  else if sym = STRING then some .string
  else if sym = BOOL then some .bool
  else if sym = LIST then some .list
  else if sym = REF then some .refTy
  else none

/-- `Sym::idx`: the store index, shifted down by `NUM_WEIRD = 1` because
`Sym::EXN` occupies raw slot 0 but has no store entry. -/
def idx (sym : Nat) : Nat := sym - 1

/-- `Sym::generated_after`. -/
def generated_after (sym : Nat) (marker : Nat) : Bool :=
  sym != EXN && decide (marker ≤ idx sym)

end Sym

/-- `StartedSym`: the handle returned by `Syms::start` (its drop bomb is a
dynamic guard carrying no data). -/
structure StartedSym where
  sym : Nat
deriving Repr

/-- `Syms`: the store of generated types, exceptions, and overloads. -/
structure Syms where
  syms : List SymInfo
  exns : List ExnInfo
  overloads : Overloads
deriving Repr

namespace Syms

/-- The placeholder `TyInfo` pushed by `Syms::start`. -/
def placeholderTyInfo : TyInfo :=
  ⟨TyScheme.zero Ty.none, [], Option.none, Option.none⟩

/-- `Syms::start`: push the placeholder with `Sometimes` equality; the
handle's sym is the length after the push (`get` subtracts 1, because of
`Sym::EXN`). -/
def start (s : Syms) (path : Path) : Syms × StartedSym :=
  let syms' := s.syms ++ [⟨path, placeholderTyInfo, .sometimes⟩]
  ({ s with syms := syms' }, ⟨syms'.length⟩)

/-- `Syms::finish`: install the real `TyInfo` and equality verdict at the
reserved slot. -/
def finish (s : Syms) (started : StartedSym) (ty_info : TyInfo)
    (equality : Equality) : Syms :=
  { s with
    syms := modifyAt s.syms (Sym.idx started.sym)
      (fun si => { si with ty_info := ty_info, equality := equality }) }

/-- `Syms::get`: returns `none` iff passed `Sym::EXN`. -/
def get (s : Syms) (sym : Nat) : Option SymInfo :=
  if sym = Sym.EXN then Option.none else s.syms[Sym.idx sym]?

/-- `Syms::insert_exn`. -/
def insert_exn (s : Syms) (path : Path) (param : Option Ty) : Syms × Nat :=
  ({ s with exns := s.exns ++ [⟨path, param⟩] }, s.exns.length)

/-- `Syms::get_exn` (the source unwraps; here an `Option`). -/
def get_exn (s : Syms) (exn : Nat) : Option ExnInfo :=
  s.exns[exn]?

/-- `Syms::mark`: a `SymsMarker` is the current store length. -/
def mark (s : Syms) : Nat := s.syms.length

end Syms

/-- A `Syms` mutation: the store's public mutating operations. -/
inductive SymsOp where
  | opStart (path : Path)
  | opFinish (started : StartedSym) (ty_info : TyInfo) (equality : Equality)
  | opInsertExn (path : Path) (param : Option Ty)

/-- Run one `SymsOp`. -/
def Syms.applyOp (s : Syms) : SymsOp → Syms
  | .opStart p => (s.start p).1
  | .opFinish st ti eq => s.finish st ti eq
  | .opInsertExn p t => (s.insert_exn p t).1

/-- Run a sequence of `SymsOp`s. -/
def Syms.applyOps (s : Syms) : List SymsOp → Syms
  | [] => s
  | op :: rest => (s.applyOp op).applyOps rest

/-! ### Substitution application -/

mutual

/-- Modelled from the spec: `Subst::apply` (and its full-depth synonym
`zonk`) lives in the unification part of `sml-statics`, which is not among
the sampled sources; per the spec it walks the type, "replacing each solved
`MetaVar` by its solution, recursively". The walk here is fuel-indexed:
replacing a solved meta variable consumes one unit of fuel, and on
exhaustion the meta variable is left in place. The Rust walk returns exactly
when it completes, i.e. when the result satisfies `resolvedB` below. -/
def Subst.applyF (s : Subst) : Nat → Ty → Ty
  | fuel, .metaVar mv =>
    match fuel, s.solvedAt mv with
    | Nat.succ f, some t => Subst.applyF s f t
    | _, _ => .metaVar mv
  | fuel, .record rows => .record (Subst.applyRows s fuel rows)
  | fuel, .con args sym => .con (Subst.applyList s fuel args) sym
  | fuel, .fn p r => .fn (Subst.applyF s fuel p) (Subst.applyF s fuel r)
  | _, .none => .none
  | _, .boundVar bv => .boundVar bv
  | _, .fixedVar fv => .fixedVar fv
termination_by fuel ty => (fuel, sizeOf ty)

/-- `Subst.applyF` over record rows. -/
def Subst.applyRows (s : Subst) : Nat → List (Lab × Ty) → List (Lab × Ty)
  | _, [] => []
  | fuel, (lab, ty) :: rest =>
    (lab, Subst.applyF s fuel ty) :: Subst.applyRows s fuel rest
termination_by fuel rows => (fuel, sizeOf rows)

/-- `Subst.applyF` over constructor arguments. -/
def Subst.applyList (s : Subst) : Nat → List Ty → List Ty
  | _, [] => []
  | fuel, ty :: rest => Subst.applyF s fuel ty :: Subst.applyList s fuel rest
termination_by fuel l => (fuel, sizeOf l)

end

mutual

/-- `ty` mentions no solved meta variable, i.e. the walk of `apply` is
complete on `ty`. -/
def Subst.resolvedB (s : Subst) : Ty → Bool
  | .metaVar mv => (s.solvedAt mv).isNone
  | .record rows => Subst.resolvedRowsB s rows
  | .con args _ => Subst.resolvedListB s args
  | .fn p r => Subst.resolvedB s p && Subst.resolvedB s r
  | _ => true
termination_by ty => sizeOf ty

/-- `Subst.resolvedB` over record rows. -/
def Subst.resolvedRowsB (s : Subst) : List (Lab × Ty) → Bool
  | [] => true
  | (_, ty) :: rest => Subst.resolvedB s ty && Subst.resolvedRowsB s rest
termination_by rows => sizeOf rows

/-- `Subst.resolvedB` over constructor arguments. -/
def Subst.resolvedListB (s : Subst) : List Ty → Bool
  | [] => true
  | ty :: rest => Subst.resolvedB s ty && Subst.resolvedListB s rest
termination_by l => sizeOf l

end

end Millet.SmlStatics

namespace Millet.Enrich

/-! ## The `core` crate's enrichment check

From `crates/core/src/statics/ck/enrich.rs`. Its supporting types live in
`core/src/statics/types.rs`, which is not among the sampled sources; those
are modelled from the spec (type schemes are a De Bruijn binder over a body,
environments are ordered maps) and from the use sites in `enrich.rs`.
-/

/-- Modelled from the spec: the `core` crate's `Ty` (its `types.rs` is not
among the sampled sources); per the spec a type is `None`, a De Bruijn bound
variable, a meta variable, a record row map, a constructor application, or a
function type. `hir::Lab` has the shape of `SmlStatics.Lab`. -/
inductive Ty where
  | none
  | boundVar (bv : Nat)
  | metaVar (mv : Nat)
  | record (rows : List (SmlStatics.Lab × Ty))
  | con (args : List Ty) (sym : Nat)
  | fn (param : Ty) (res : Ty)
deriving Repr

mutual

/-- Syntactic equality of core types. -/
def tyBEq : Ty → Ty → Bool
  | .none, .none => true
  | .boundVar a, .boundVar b => a == b
  | .metaVar a, .metaVar b => a == b
  | .record r1, .record r2 => rowsBEq r1 r2
  | .con a1 s1, .con a2 s2 => s1 == s2 && listBEq a1 a2
  | .fn p1 r1, .fn p2 r2 => tyBEq p1 p2 && tyBEq r1 r2
  | _, _ => false
termination_by t _ => sizeOf t

/-- `tyBEq` over record rows. -/
def rowsBEq : List (SmlStatics.Lab × Ty) → List (SmlStatics.Lab × Ty) → Bool
  | [], [] => true
  | (l1, t1) :: r1, (l2, t2) :: r2 => l1 == l2 && tyBEq t1 t2 && rowsBEq r1 r2
  | _, _ => false
termination_by l _ => sizeOf l

/-- `tyBEq` over constructor arguments. -/
def listBEq : List Ty → List Ty → Bool
  | [], [] => true
  | t1 :: r1, t2 :: r2 => tyBEq t1 t2 && listBEq r1 r2
  | _, _ => false
termination_by l _ => sizeOf l

end

/-- Modelled from the spec: the `core` crate's `TyScheme` / `TyFcn` (its
`types.rs` is not among the sampled sources); a binder of `arity` bound
variables over a De Bruijn body. Slot kinds do not matter to enrichment. -/
structure TyScheme where
  arity : Nat
  ty : Ty
deriving Repr

mutual

/-- Instantiation of a scheme body: replace `BoundVar i` by `args[i]`
(a bound variable beyond `args` stays in place). -/
def instantiateTy (args : List Ty) : Ty → Ty
  | .none => .none
  | .boundVar n => args.getD n (.boundVar n)
  | .metaVar m => .metaVar m
  | .record rows => .record (instantiateRows args rows)
  | .con tys s => .con (instantiateList args tys) s
  | .fn p r => .fn (instantiateTy args p) (instantiateTy args r)
termination_by t => sizeOf t

/-- `instantiateTy` over record rows. -/
def instantiateRows (args : List Ty) :
    List (SmlStatics.Lab × Ty) → List (SmlStatics.Lab × Ty)
  | [] => []
  | (lab, t) :: rest => (lab, instantiateTy args t) :: instantiateRows args rest
termination_by l => sizeOf l

/-- `instantiateTy` over constructor arguments. -/
def instantiateList (args : List Ty) : List Ty → List Ty
  | [] => []
  | t :: rest => instantiateTy args t :: instantiateList args rest
termination_by l => sizeOf l

end

/-- Generalization of type schemes, `sigma ≻ tau`, as the spec words it for
the enrichment value rule: there is a substitution for `sigma`'s bound
variables making `sigma`'s body equal to `tau`'s body (with `tau`'s own
bound variables rigid). -/
def generalizes (sigma tau : TyScheme) : Prop :=
  ∃ args : List Ty,
    args.length = sigma.arity ∧ instantiateTy args sigma.ty = tau.ty

mutual

/-- First-order matching of a scheme body (whose bound variables are match
variables) against a target type, accumulating a consistent assignment. -/
def mtch : Ty → Ty → List (Nat × Ty) → Option (List (Nat × Ty))
  | .boundVar n, t, acc =>
    match lookupKey n acc with
    | some t' => if tyBEq t' t then some acc else none
    | Option.none => some (insertKey n t acc)
  | .none, .none, acc => some acc
  | .metaVar m1, .metaVar m2, acc => if m1 = m2 then some acc else none
  | .record r1, .record r2, acc => mtchRows r1 r2 acc
  | .con a1 s1, .con a2 s2, acc =>
    if s1 = s2 then mtchList a1 a2 acc else none
  | .fn p1 r1, .fn p2 r2, acc =>
    match mtch p1 p2 acc with
    | some acc2 => mtch r1 r2 acc2
    | Option.none => none
  | _, _, _ => none
termination_by t _ _ => sizeOf t

/-- `mtch` over record rows. -/
def mtchRows : List (SmlStatics.Lab × Ty) → List (SmlStatics.Lab × Ty) →
    List (Nat × Ty) → Option (List (Nat × Ty))
  | [], [], acc => some acc
  | (l1, t1) :: r1, (l2, t2) :: r2, acc =>
    if l1 = l2 then
      match mtch t1 t2 acc with
      | some acc2 => mtchRows r1 r2 acc2
      | Option.none => none
    else none
  | _, _, _ => none
termination_by l _ _ => sizeOf l

/-- `mtch` over constructor arguments. -/
def mtchList : List Ty → List Ty → List (Nat × Ty) →
    Option (List (Nat × Ty))
  | [], [], acc => some acc
  | t1 :: r1, t2 :: r2, acc =>
    match mtch t1 t2 acc with
    | some acc2 => mtchList r1 r2 acc2
    | Option.none => none
  | _, _, _ => none
termination_by l _ _ => sizeOf l

end

/-- `IdStatus` of the `core` crate (no payload; `PartialEq`-comparable). -/
inductive IdStatus where
  | con
  | exn
  | val
deriving DecidableEq, Repr

/-- `IdStatus::is_val`. -/
def IdStatus.is_val : IdStatus → Bool
  | .val => true
  | _ => false

/-- `ValInfo` of the `core` crate. -/
structure ValInfo where
  ty_scheme : TyScheme
  id_status : IdStatus
deriving Repr

/-- `ValEnv` of the `core` crate: an ordered map from names to `ValInfo`,
modelled as its entry list in iteration order. -/
abbrev ValEnv := List (String × ValInfo)

/-- `TyInfo` of the `core` crate as used by `enrich.rs`: either an alias
carrying a type function, or a generative sym. -/
inductive TyInfo where
  | alias (tf : TyScheme)
  | sym (s : Nat)
deriving Repr

/-- What `SymTys` records per sym: its type function and the constructor
value environment. -/
structure SymTyInfo where
  ty_fcn : TyScheme
  val_env : ValEnv
deriving Repr

/-- `SymTys`: the sym store of the `core` crate. -/
abbrev SymTys := List (Nat × SymTyInfo)

/-- Modelled from the spec: `TyInfo::ty_fcn` (in the missing
`core/src/statics/types.rs`): an alias carries its type function, a
generative sym's is looked up in `SymTys`. The source unwraps the lookup;
a missing sym here yields the zero scheme over `Ty::None`. -/
def TyInfo.ty_fcn (symTys : SymTys) : TyInfo → TyScheme
  | .alias tf => tf
  | .sym s => ((lookupKey s symTys).map SymTyInfo.ty_fcn).getD ⟨0, .none⟩

/-- The constructor value environment of a `TyInfo`, empty for aliases. -/
def TyInfo.ctor_env (symTys : SymTys) : TyInfo → ValEnv
  | .alias _ => []
  | .sym s => ((lookupKey s symTys).map SymTyInfo.val_env).getD []

/-- An enrichment error: the `Loc` plus the `Error::Todo` message. -/
abbrev Err := Nat × String

/-- The `Subst` returned by `ck_generalizes` (the witnessing assignment);
discarded by every caller. -/
structure Subst where
  map : List (Nat × Ty)

/-- Modelled from the spec: the body of `ck_generalizes` uses `Subst::unify`
and `TyScheme::free_ty_vars` from the missing `core/src/statics/types.rs`.
Per its contract — "Returns Ok(s) iff want generalizes got as per the
Definition" — it succeeds iff its first argument generalizes its second,
decided here by matching the first scheme's body (its bound variables as
match variables, checked against the binder arity) against the second's. -/
def ckGeneralizes (loc : Nat) (symTys : SymTys) (want got : TyScheme) :
    Except Err Subst :=
  match mtch want.ty got.ty [] with
  | some acc =>
    if acc.all (fun p => p.1 < want.arity) then .ok ⟨acc⟩
    else .error (loc, "bad free ty var")
  | Option.none => .error (loc, "could not unify")

/-- `ck_ty_fcn_eq`: both schemes generalize each other. -/
def ckTyFcnEq (loc : Nat) (symTys : SymTys) (got want : TyScheme) :
    Except Err Unit :=
  match ckGeneralizes loc symTys want got with
  | .error e => .error e
  | .ok _ =>
    match ckGeneralizes loc symTys got want with
    | .error e => .error e
    | .ok _ => .ok ()

/-- `ck_val_info`: id statuses must match unless `want`'s is `Val`; then
`ck_generalizes(want.ty_scheme, got.ty_scheme)`, exactly as the source
passes the arguments. -/
def ckValInfo (loc : Nat) (symTys : SymTys) (got want : ValInfo) :
    Except Err Unit :=
  if got.id_status ≠ want.id_status ∧ want.id_status.is_val = false then
    .error (loc, "incompatible id statuses")
  else
    match ckGeneralizes loc symTys want.ty_scheme got.ty_scheme with
    | .error e => .error e
    | .ok _ => .ok ()

/-- The per-name loop of `ck_val_env_eq` (the source unwraps the lookup,
which the preceding key-set check makes safe). -/
def ckValEnvEqLoop (loc : Nat) (symTys : SymTys) (got : ValEnv) :
    ValEnv → Except Err Unit
  | [] => .ok ()
  | (name, want_vi) :: rest =>
    match lookupName name got with
    | Option.none => .error (loc, "unequal keys")
    | some got_vi =>
      if want_vi.id_status ≠ got_vi.id_status then
        .error (loc, "unequal id statuses")
      else
        match ckTyFcnEq loc symTys got_vi.ty_scheme want_vi.ty_scheme with
        | .error e => .error e
        | .ok _ => ckValEnvEqLoop loc symTys got rest

/-- `ck_val_env_eq`: the key sequences must be equal, then check each entry. -/
def ckValEnvEq (loc : Nat) (symTys : SymTys) (got want : ValEnv) :
    Except Err Unit :=
  if keysOf want ≠ keysOf got then .error (loc, "unequal keys")
  else ckValEnvEqLoop loc symTys got want

/-- `ck_ty_info`: type functions equal; if `want` is generative with a
non-empty constructor env, `got` must be generative with an equal one. -/
def ckTyInfo (loc : Nat) (symTys : SymTys) (got want : TyInfo) :
    Except Err Unit :=
  match ckTyFcnEq loc symTys (got.ty_fcn symTys) (want.ty_fcn symTys) with
  | .error e => .error e
  | .ok _ =>
    match want with
    | .alias _ => .ok ()
    | .sym s =>
      let wantVE := ((lookupKey s symTys).map SymTyInfo.val_env).getD []
      if wantVE.isEmpty then .ok ()
      else
        match got with
        | .alias _ => .error (loc, "got empty want non-empty")
        | .sym s2 =>
          ckValEnvEq loc symTys
            (((lookupKey s2 symTys).map SymTyInfo.val_env).getD []) wantVE

/-- `Env` of the `core` crate: nested structures, types, values — each an
ordered map modelled as its entry list in iteration order. -/
inductive Env where
  | mk (str_env : List (String × Env)) (ty_env : List (String × TyInfo))
      (val_env : List (String × ValInfo))

/-- The structure environment of an `Env`. -/
def Env.str_env : Env → List (String × Env)
  | .mk s _ _ => s

/-- The type environment of an `Env` (the source's `ty_env.inner`). -/
def Env.ty_env : Env → List (String × TyInfo)
  | .mk _ t _ => t

/-- The value environment of an `Env`. -/
def Env.val_env : Env → List (String × ValInfo)
  | .mk _ _ v => v

/-- The `ty_env` loop of `ck`. -/
def ckTys (loc : Nat) (symTys : SymTys) (gotTy : List (String × TyInfo)) :
    List (String × TyInfo) → Except Err Unit
  | [] => .ok ()
  | (name, wantTI) :: rest =>
    match lookupName name gotTy with
    | Option.none => .error (loc, "missing a type")
    | some gotTI =>
      match ckTyInfo loc symTys gotTI wantTI with
      | .error e => .error e
      | .ok _ => ckTys loc symTys gotTy rest

/-- The `val_env` loop of `ck`. -/
def ckVals (loc : Nat) (symTys : SymTys) (gotVal : List (String × ValInfo)) :
    List (String × ValInfo) → Except Err Unit
  | [] => .ok ()
  | (name, wantVI) :: rest =>
    match lookupName name gotVal with
    | Option.none => .error (loc, "missing a value")
    | some gotVI =>
      match ckValInfo loc symTys gotVI wantVI with
      | .error e => .error e
      | .ok _ => ckVals loc symTys gotVal rest

mutual

/-- `ck`: got enriches want — structures first, then types, then values,
iterating `want` in its order, stopping at the first failure. -/
def ck (loc : Nat) (symTys : SymTys) : Env → Env → Except Err Unit
  | got, .mk wstr wty wval =>
    match ckStrs loc symTys got.str_env wstr with
    | .error e => .error e
    | .ok _ =>
      match ckTys loc symTys got.ty_env wty with
      | .error e => .error e
      | .ok _ => ckVals loc symTys got.val_env wval
termination_by _ want => sizeOf want

/-- The `str_env` loop of `ck`: each wanted structure must exist and
recursively enrich. -/
def ckStrs (loc : Nat) (symTys : SymTys) (gotStr : List (String × Env)) :
    List (String × Env) → Except Err Unit
  | [] => .ok ()
  | (name, wantE) :: rest =>
    match lookupName name gotStr with
    | Option.none => .error (loc, "missing a struct")
    | some gotE =>
      match ck loc symTys gotE wantE with
      | .error e => .error e
      | .ok _ => ckStrs loc symTys gotStr rest
termination_by l => sizeOf l

end

/-- The result of each individual structure item check, in `want`'s order. -/
def ckStrItems (loc : Nat) (symTys : SymTys) (gotStr : List (String × Env)) :
    List (String × Env) → List (Except Err Unit)
  | [] => []
  | (name, wantE) :: rest =>
    (match lookupName name gotStr with
      | Option.none => .error (loc, "missing a struct")
      | some gotE => ck loc symTys gotE wantE) ::
      ckStrItems loc symTys gotStr rest

/-- The result of each individual type item check, in `want`'s order. -/
def ckTyItems (loc : Nat) (symTys : SymTys) (gotTy : List (String × TyInfo)) :
    List (String × TyInfo) → List (Except Err Unit)
  | [] => []
  | (name, wantTI) :: rest =>
    (match lookupName name gotTy with
      | Option.none => .error (loc, "missing a type")
      | some gotTI => ckTyInfo loc symTys gotTI wantTI) ::
      ckTyItems loc symTys gotTy rest

/-- The result of each individual value item check, in `want`'s order. -/
def ckValItems (loc : Nat) (symTys : SymTys)
    (gotVal : List (String × ValInfo)) :
    List (String × ValInfo) → List (Except Err Unit)
  | [] => []
  | (name, wantVI) :: rest =>
    (match lookupName name gotVal with
      | Option.none => .error (loc, "missing a value")
      | some gotVI => ckValInfo loc symTys gotVI wantVI) ::
      ckValItems loc symTys gotVal rest

/-- All item results of the enrichment check, in the fixed order: structures,
then types, then values, each in `want`'s iteration order. -/
def ckItems (loc : Nat) (symTys : SymTys) (got want : Env) :
    List (Except Err Unit) :=
  ckStrItems loc symTys got.str_env want.str_env ++
    ckTyItems loc symTys got.ty_env want.ty_env ++
    ckValItems loc symTys got.val_env want.val_env

/-- The first error of a list of item results, or success. -/
def firstError : List (Except Err Unit) → Except Err Unit
  | [] => .ok ()
  | .ok _ :: rest => firstError rest
  | .error e :: _ => .error e

end Millet.Enrich

namespace Millet

/-! # Theorems -/

/-! ## Association-list lemmas -/

theorem lookupKey_insertKey_self {α : Type} (k : Nat) (v : α) :
    ∀ m : List (Nat × α), lookupKey k (insertKey k v m) = some v := by
  intro m
  induction m with
  | nil => simp [insertKey, lookupKey]
  | cons hd tl ih =>
    obtain ⟨k', v'⟩ := hd
    by_cases h : k' = k
    · simp [insertKey, lookupKey, h]
    · simp [insertKey, lookupKey, h, ih]

theorem lookupKey_insertKey_ne {α : Type} (k j : Nat) (v : α) (hne : j ≠ k) :
    ∀ m : List (Nat × α), lookupKey j (insertKey k v m) = lookupKey j m := by
  have hne' : k ≠ j := fun h => hne h.symm
  intro m
  induction m with
  | nil => simp [insertKey, lookupKey, hne']
  | cons hd tl ih =>
    obtain ⟨k', v'⟩ := hd
    by_cases h : k' = k
    · subst h
      simp [insertKey, lookupKey, hne']
    · by_cases h2 : k' = j
      · simp [insertKey, lookupKey, h, h2, hne]
      · simp [insertKey, lookupKey, h, h2, ih]

theorem modifyAt_getElem_self {α : Type} (f : α → α) :
    ∀ (l : List α) (i : Nat), (modifyAt l i f)[i]? = (l[i]?).map f := by
  intro l
  induction l with
  | nil => intro i; simp [modifyAt]
  | cons x rest ih =>
    intro i
    cases i with
    | zero => simp [modifyAt]
    | succ j => simpa [modifyAt] using ih j

theorem modifyAt_getElem_ne {α : Type} (f : α → α) :
    ∀ (l : List α) (i j : Nat), j ≠ i → (modifyAt l i f)[j]? = l[j]? := by
  intro l
  induction l with
  | nil => intro i j _; simp [modifyAt]
  | cons x rest ih =>
    intro i j hne
    cases i with
    | zero =>
      cases j with
      | zero => exact absurd rfl hne
      | succ k => simp [modifyAt]
    | succ i' =>
      cases j with
      | zero => simp [modifyAt]
      | succ k =>
        have : k ≠ i' := by omega
        simpa [modifyAt] using ih i' k this

theorem length_modifyAt {α : Type} (f : α → α) :
    ∀ (l : List α) (i : Nat), (modifyAt l i f).length = l.length := by
  intro l
  induction l with
  | nil => intro i; simp [modifyAt]
  | cons x rest ih =>
    intro i
    cases i with
    | zero => simp [modifyAt]
    | succ j => simpa [modifyAt] using ih j

/-! ## Sorted-map lemmas -/

theorem lookupName_eq_none_of_ne {α : Type} (k : String) :
    ∀ m : List (String × α), (∀ p ∈ m, p.1 ≠ k) → lookupName k m = none := by
  intro m
  induction m with
  | nil => intro _; rfl
  | cons p rest ih =>
    obtain ⟨k', v'⟩ := p
    intro h
    have hk : k' ≠ k := h (k', v') (List.mem_cons_self _ _)
    simp only [lookupName, if_neg hk]
    exact ih fun q hq => h q (List.mem_cons_of_mem _ hq)

theorem sorted_lookupName_ext {α : Type} :
    ∀ m1 m2 : List (String × α), SortedKeys m1 → SortedKeys m2 →
      (∀ k, lookupName k m1 = lookupName k m2) → m1 = m2 := by
  intro m1
  induction m1 with
  | nil =>
    intro m2 _ _ h
    cases m2 with
    | nil => rfl
    | cons p2 r2 =>
      obtain ⟨k2, v2⟩ := p2
      have := h k2
      simp [lookupName] at this
  | cons p1 r1 ih =>
    obtain ⟨k1, v1⟩ := p1
    intro m2 hs1 hs2 h
    cases m2 with
    | nil =>
      have := h k1
      simp [lookupName] at this
    | cons p2 r2 =>
      obtain ⟨k2, v2⟩ := p2
      obtain ⟨hlt1, hr1⟩ := List.pairwise_cons.mp hs1
      obtain ⟨hlt2, hr2⟩ := List.pairwise_cons.mp hs2
      rcases lt_trichotomy k1 k2 with hlt | heq | hgt
      · exfalso
        have hnone : lookupName k1 ((k2, v2) :: r2) = none := by
          refine lookupName_eq_none_of_ne k1 _ ?_
          intro p hp
          rcases List.mem_cons.mp hp with hp | hp
          · rw [hp]; exact ne_of_gt hlt
          · exact ne_of_gt (lt_trans hlt (hlt2 p hp))
        have := h k1
        rw [hnone] at this
        simp [lookupName] at this
      · subst heq
        have hv : v1 = v2 := by
          have := h k1
          simpa [lookupName] using this
        subst hv
        have htail : ∀ k, lookupName k r1 = lookupName k r2 := by
          intro k
          by_cases hk : k = k1
          · subst hk
            rw [lookupName_eq_none_of_ne k _
                (fun p hp => ne_of_gt (hlt1 p hp)),
              lookupName_eq_none_of_ne k _
                (fun p hp => ne_of_gt (hlt2 p hp))]
          · have hk1 : k1 ≠ k := fun h' => hk h'.symm
            have := h k
            simpa [lookupName, hk1] using this
        rw [ih r2 hr1 hr2 htail]
      · exfalso
        have hnone : lookupName k2 ((k1, v1) :: r1) = none := by
          refine lookupName_eq_none_of_ne k2 _ ?_
          intro p hp
          rcases List.mem_cons.mp hp with hp | hp
          · rw [hp]; exact ne_of_gt hgt
          · exact ne_of_gt (lt_trans hgt (hlt1 p hp))
        have := h k2
        rw [hnone] at this
        simp [lookupName] at this

theorem mem_insertSorted {α : Type} (k : String) (v : α) :
    ∀ (m : List (String × α)) (p : String × α),
      p ∈ insertSorted k v m → p = (k, v) ∨ p ∈ m := by
  intro m
  induction m with
  | nil =>
    intro p hp
    simp only [insertSorted] at hp
    exact Or.inl (List.mem_singleton.mp hp)
  | cons q rest ih =>
    obtain ⟨k', v'⟩ := q
    intro p hp
    by_cases h1 : k = k'
    · simp only [insertSorted, if_pos h1] at hp
      rcases List.mem_cons.mp hp with hp | hp
      · exact Or.inl hp
      · exact Or.inr (List.mem_cons_of_mem _ hp)
    · by_cases h2 : k < k'
      · simp only [insertSorted, if_neg h1, if_pos h2] at hp
        rcases List.mem_cons.mp hp with hp | hp
        · exact Or.inl hp
        · exact Or.inr hp
      · simp only [insertSorted, if_neg h1, if_neg h2] at hp
        rcases List.mem_cons.mp hp with hp | hp
        · exact Or.inr (by simp [hp])
        · rcases ih p hp with hp2 | hp2
          · exact Or.inl hp2
          · exact Or.inr (List.mem_cons_of_mem _ hp2)

theorem sortedKeys_insertSorted {α : Type} (k : String) (v : α) :
    ∀ m : List (String × α), SortedKeys m → SortedKeys (insertSorted k v m) := by
  intro m
  induction m with
  | nil => intro _; simp [insertSorted, SortedKeys]
  | cons q rest ih =>
    obtain ⟨k', v'⟩ := q
    intro hs
    obtain ⟨hlt, hrest⟩ := List.pairwise_cons.mp hs
    by_cases h1 : k = k'
    · subst h1
      simp only [insertSorted, if_pos rfl]
      exact List.pairwise_cons.mpr ⟨hlt, hrest⟩
    · by_cases h2 : k < k'
      · simp only [insertSorted, if_neg h1, if_pos h2]
        refine List.pairwise_cons.mpr ⟨?_, List.pairwise_cons.mpr ⟨hlt, hrest⟩⟩
        intro p hp
        rcases List.mem_cons.mp hp with hp | hp
        · rw [hp]; exact h2
        · exact lt_trans h2 (hlt p hp)
      · have h3 : k' < k := by
          rcases lt_trichotomy k k' with h | h | h
          · exact absurd h h2
          · exact absurd h h1
          · exact h
        simp only [insertSorted, if_neg h1, if_neg h2]
        refine List.pairwise_cons.mpr ⟨?_, ih hrest⟩
        intro p hp
        rcases mem_insertSorted k v rest p hp with hp2 | hp2
        · rw [hp2]; exact h3
        · exact hlt p hp2

theorem lookupName_insertSorted {α : Type} (k j : String) (v : α) :
    ∀ m : List (String × α),
      lookupName j (insertSorted k v m) =
        if k = j then some v else lookupName j m := by
  intro m
  induction m with
  | nil => simp [insertSorted, lookupName]
  | cons q rest ih =>
    obtain ⟨k', v'⟩ := q
    by_cases h1 : k = k'
    · subst h1
      by_cases hj : k = j <;> simp [insertSorted, lookupName, hj]
    · by_cases h2 : k < k'
      · by_cases hj : k = j
        · subst hj
          simp [insertSorted, h1, h2, lookupName]
        · simp [insertSorted, h1, h2, lookupName, hj]
      · by_cases hj : k' = j
        · subst hj
          have : ¬k = k' := h1
          simp [insertSorted, h1, h2, lookupName, fun h => h1 h]
        · simp [insertSorted, h1, h2, lookupName, hj, ih]

/-! ## Subst lemmas -/

namespace SmlStatics.Subst

theorem get_insert_self (s : Subst) (mv : Nat) (e : SubstEntry) :
    ((s.insert mv e).1).get mv = some e := by
  cases e <;> simp [insert, get, lookupKey_insertKey_self]

theorem get_insert_ne (s : Subst) (mv j : Nat) (e : SubstEntry) (h : j ≠ mv) :
    ((s.insert mv e).1).get j = s.get j := by
  cases e <;> simp [insert, get, lookupKey_insertKey_ne mv j _ h]

end SmlStatics.Subst

/-! ## Theorems for claim C1 -/

/-- Claim C1: for every pair of overloads, `Overload::unify` returns `some o`
with the basics of `o` equal (as a set) to the intersection of the two basic
sets whenever that intersection is non-empty, and `none` whenever the
intersection is empty; and the composite classes denote the documented basic
sets (`WordInt = {Word,Int}`, `RealInt = {Real,Int}`, `Num = {Word,Real,Int}`,
`NumTxt = Num ∪ {String,Char}`, `NumTxtEq = NumTxt \ {Real}`). -/
theorem c1_overload_unify_is_intersection :
    (∀ o1 o2 o : Millet.Overload, ∀ b : Millet.Basic, o1.unify o2 = some o →
      (b ∈ o.as_basics ↔ (b ∈ o1.as_basics ∧ b ∈ o2.as_basics))) ∧
    (∀ o1 o2 : Millet.Overload,
      (o1.unify o2 = none ↔
        ∀ b : Millet.Basic, ¬(b ∈ o1.as_basics ∧ b ∈ o2.as_basics))) ∧
    (∀ b : Millet.Basic,
      (b ∈ Millet.Composite.wordInt.as_basics ↔ b = .word ∨ b = .int) ∧
      (b ∈ Millet.Composite.realInt.as_basics ↔ b = .real ∨ b = .int) ∧
      (b ∈ Millet.Composite.num.as_basics ↔ b = .word ∨ b = .real ∨ b = .int) ∧
      (b ∈ Millet.Composite.numTxt.as_basics ↔
        b ∈ Millet.Composite.num.as_basics ∨ b = .string ∨ b = .char) ∧
      (b ∈ Millet.Composite.numTxtEq.as_basics ↔
        b ∈ Millet.Composite.numTxt.as_basics ∧ b ≠ .real)) :=
  ⟨by decide, by decide, by decide⟩

/-- Witness for C1 at concrete inputs: unifying `NumTxtEq` with `RealInt`
yields basic `Int`, and `Int` is in the basics of the result exactly because
it is in the basics of both sides. -/
theorem c1_overload_unify_is_intersection_witness :
    Millet.Basic.int ∈
        (Millet.Overload.composite .numTxtEq).as_basics ∧
      Millet.Basic.int ∈ (Millet.Overload.composite .realInt).as_basics ∧
      (Millet.Overload.composite .numTxtEq).unify (.composite .realInt) =
        some (.basic .int) ∧
      Millet.Basic.int ∈ (Millet.Overload.basic Millet.Basic.int).as_basics :=
  ⟨by decide, by decide,
    by decide,
    (c1_overload_unify_is_intersection.1 (.composite .numTxtEq)
      (.composite .realInt) (.basic .int) Millet.Basic.int
        (by decide)).2 ⟨by decide, by decide⟩⟩

/-! ## Theorems for claim C2 -/

/-- Claim C2, counterexample: `Subst::insert` called on an already-solved
meta variable does replace the recorded solution (the source `insert` is an
unconditional `HashMap::insert` that returns the previous entry), so the
claim as stated — that inserting for an already-solved `mv` does not replace
the existing solution — is false at this concrete state. -/
theorem c2_insert_overwrites_counterexample :
    (Millet.SmlStatics.Subst.insert
        ⟨[], [(0, .solved (Millet.SmlStatics.Ty.con [] 1))]⟩
        0 (.solved Millet.SmlStatics.Ty.none)).1.solvedAt 0 =
      some Millet.SmlStatics.Ty.none ∧
    some Millet.SmlStatics.Ty.none ≠
      some (Millet.SmlStatics.Ty.con [] 1) := by
  constructor
  · rfl
  · simp

/-- Claim C2, amended: under the documented precondition discipline —
`insert` is only ever called on a meta variable that is not already solved —
an insert records its solution, and no sequence of `insert` operations
overwrites a previously recorded solution. -/
theorem c2_insert_no_overwrite_under_precondition :
    (∀ (s : Millet.SmlStatics.Subst) (mv : Nat) (t : Millet.SmlStatics.Ty),
      s.solvedAt mv = none →
        ((s.insert mv (.solved t)).1).solvedAt mv = some t) ∧
    (∀ (s : Millet.SmlStatics.Subst)
        (ops : List (Nat × Millet.SmlStatics.SubstEntry)),
      s.PrecondOK ops →
        ∀ (mv : Nat) (t : Millet.SmlStatics.Ty), s.solvedAt mv = some t →
          (s.applyInserts ops).solvedAt mv = some t) := by
  constructor
  · intro s mv t _
    simp [Millet.SmlStatics.Subst.solvedAt,
      Millet.SmlStatics.Subst.get_insert_self]
  · intro s ops
    induction ops generalizing s with
    | nil =>
      intro _ mv t h
      simpa [Millet.SmlStatics.Subst.applyInserts] using h
    | cons hd tl ih =>
      obtain ⟨mv', e'⟩ := hd
      intro hpre mv t h
      obtain ⟨hnone, hrest⟩ := hpre
      have hne : mv ≠ mv' := by
        intro heq
        subst heq
        rw [h] at hnone
        exact Option.noConfusion hnone
      have hkeep : ((s.insert mv' e').1).solvedAt mv = some t := by
        simpa [Millet.SmlStatics.Subst.solvedAt,
          Millet.SmlStatics.Subst.get_insert_ne s mv' mv e' hne] using h
      simpa [Millet.SmlStatics.Subst.applyInserts] using
        ih ((s.insert mv' e').1) hrest mv t hkeep

/-- Witness for the amended C2 at concrete states: inserting a solution for
meta variable 0 into the empty substitution records it, and a
precondition-respecting insert for meta variable 1 preserves the solution
already recorded for meta variable 0. -/
theorem c2_insert_no_overwrite_under_precondition_witness :
    (Millet.SmlStatics.Subst.insert ⟨[], []⟩ 0
        (.solved Millet.SmlStatics.Ty.none)).1.solvedAt 0 =
      some Millet.SmlStatics.Ty.none ∧
    (Millet.SmlStatics.Subst.applyInserts
        ⟨[], [(0, .solved Millet.SmlStatics.Ty.none)]⟩
        [(1, .solved (Millet.SmlStatics.Ty.con [] 2))]).solvedAt 0 =
      some Millet.SmlStatics.Ty.none :=
  ⟨c2_insert_no_overwrite_under_precondition.1 ⟨[], []⟩ 0
      Millet.SmlStatics.Ty.none rfl,
    c2_insert_no_overwrite_under_precondition.2
      ⟨[], [(0, .solved Millet.SmlStatics.Ty.none)]⟩
      [(1, .solved (Millet.SmlStatics.Ty.con [] 2))]
      ⟨rfl, trivial⟩ 0 Millet.SmlStatics.Ty.none rfl⟩

/-! ## Syms lemmas -/

namespace SmlStatics

theorem Syms.get_eq_some_iff (s : Syms) (y : Nat) (i : SymInfo) :
    s.get y = some i ↔ y ≠ 0 ∧ s.syms[y - 1]? = some i := by
  unfold Syms.get Sym.idx Sym.EXN
  by_cases h : y = 0 <;> simp [h]

theorem Syms.syms_length_applyOp (s : Syms) (op : SymsOp) :
    s.syms.length ≤ (s.applyOp op).syms.length := by
  cases op with
  | opStart p => simp [Syms.applyOp, Syms.start]
  | opFinish st ti eq => simp [Syms.applyOp, Syms.finish, length_modifyAt]
  | opInsertExn p t => simp [Syms.applyOp, Syms.insert_exn]

theorem Syms.syms_length_applyOps (s : Syms) (ops : List SymsOp) :
    s.syms.length ≤ (s.applyOps ops).syms.length := by
  induction ops generalizing s with
  | nil => simp [Syms.applyOps]
  | cons op rest ih =>
    have h1 := Syms.syms_length_applyOp s op
    have h2 := ih (s.applyOp op)
    simp only [Syms.applyOps]
    omega

end SmlStatics

/-! ## Substitution application lemmas -/

namespace SmlStatics

mutual

theorem Subst.applyF_of_resolved (s : Subst) (fuel : Nat) :
    ∀ ty : Ty, Subst.resolvedB s ty = true → Subst.applyF s fuel ty = ty
  | .none, _ => by cases fuel <;> simp [Subst.applyF]
  | .boundVar bv, _ => by cases fuel <;> simp [Subst.applyF]
  | .fixedVar fv, _ => by cases fuel <;> simp [Subst.applyF]
  | .metaVar mv, h => by
    have hnone : s.solvedAt mv = Option.none := by
      simpa [Subst.resolvedB, Option.isNone_iff_eq_none] using h
    cases fuel <;> simp [Subst.applyF, hnone]
  | .record rows, h => by
    have hr : Subst.resolvedRowsB s rows = true := by
      simpa [Subst.resolvedB] using h
    simp [Subst.applyF, Subst.applyRows_of_resolved s fuel rows hr]
  | .con args sym, h => by
    have ha : Subst.resolvedListB s args = true := by
      simpa [Subst.resolvedB] using h
    simp [Subst.applyF, Subst.applyList_of_resolved s fuel args ha]
  | .fn p r, h => by
    have hp : Subst.resolvedB s p = true ∧ Subst.resolvedB s r = true := by
      simpa [Subst.resolvedB, Bool.and_eq_true] using h
    simp [Subst.applyF, Subst.applyF_of_resolved s fuel p hp.1,
      Subst.applyF_of_resolved s fuel r hp.2]
termination_by ty => sizeOf ty

theorem Subst.applyRows_of_resolved (s : Subst) (fuel : Nat) :
    ∀ rows : List (Lab × Ty), Subst.resolvedRowsB s rows = true →
      Subst.applyRows s fuel rows = rows
  | [], _ => by simp [Subst.applyRows]
  | (lab, ty) :: rest, h => by
    have hs : Subst.resolvedB s ty = true ∧
        Subst.resolvedRowsB s rest = true := by
      simpa [Subst.resolvedRowsB, Bool.and_eq_true] using h
    simp [Subst.applyRows, Subst.applyF_of_resolved s fuel ty hs.1,
      Subst.applyRows_of_resolved s fuel rest hs.2]
termination_by rows => sizeOf rows

theorem Subst.applyList_of_resolved (s : Subst) (fuel : Nat) :
    ∀ l : List Ty, Subst.resolvedListB s l = true →
      Subst.applyList s fuel l = l
  | [], _ => by simp [Subst.applyList]
  | ty :: rest, h => by
    have hs : Subst.resolvedB s ty = true ∧
        Subst.resolvedListB s rest = true := by
      simpa [Subst.resolvedListB, Bool.and_eq_true] using h
    simp [Subst.applyList, Subst.applyF_of_resolved s fuel ty hs.1,
      Subst.applyList_of_resolved s fuel rest hs.2]
termination_by l => sizeOf l

end

end SmlStatics

/-! ## Theorems for claim C9 -/

/-- Claim C9: substitution application is idempotent. Whenever the walk of
`apply` completes — its result mentions no solved meta variable, which is
exactly the condition under which the recursive source walk returns —
applying the substitution again (with any fuel) returns the same type:
`apply(apply(ty)) = apply(ty)`. -/
theorem c9_subst_apply_idempotent (s : SmlStatics.Subst)
    (fuel fuel2 : Nat) (ty : SmlStatics.Ty)
    (h : SmlStatics.Subst.resolvedB s (SmlStatics.Subst.applyF s fuel ty) =
      true) :
    SmlStatics.Subst.applyF s fuel2 (SmlStatics.Subst.applyF s fuel ty) =
      SmlStatics.Subst.applyF s fuel ty :=
  SmlStatics.Subst.applyF_of_resolved s fuel2 _ h

/-- Witness for C9 at a concrete state: with meta variable 0 solved to the
zero-argument constructor 1, applying resolves `MetaVar 0` to that
constructor, the walk completes, and applying again is the identity. -/
theorem c9_subst_apply_idempotent_witness :
    SmlStatics.Subst.applyF ⟨[], [(0, .solved (.con [] 1))]⟩ 1
        (.metaVar 0) = .con [] 1 ∧
    SmlStatics.Subst.applyF ⟨[], [(0, .solved (.con [] 1))]⟩ 1
        (SmlStatics.Subst.applyF ⟨[], [(0, .solved (.con [] 1))]⟩ 1
          (.metaVar 0)) =
      SmlStatics.Subst.applyF ⟨[], [(0, .solved (.con [] 1))]⟩ 1
        (.metaVar 0) := by
  have happ : SmlStatics.Subst.applyF ⟨[], [(0, .solved (.con [] 1))]⟩ 1
      (.metaVar 0) = .con [] 1 := by
    simp [SmlStatics.Subst.applyF, SmlStatics.Subst.applyList,
      SmlStatics.Subst.solvedAt, SmlStatics.Subst.get, lookupKey]
  refine ⟨happ, c9_subst_apply_idempotent _ 1 1 _ ?_⟩
  rw [happ]
  simp [SmlStatics.Subst.resolvedB, SmlStatics.Subst.resolvedListB]

/-! ## Enrichment lemmas -/

namespace Enrich

theorem firstError_append :
    ∀ a b : List (Except Err Unit),
      firstError (a ++ b) =
        match firstError a with
        | .error e => .error e
        | .ok _ => firstError b := by
  intro a b
  induction a with
  | nil => simp [firstError]
  | cons x rest ih =>
    cases x with
    | error e => simp [firstError]
    | ok u => cases u; simpa [firstError] using ih

theorem ckStrs_eq_firstError (loc : Nat) (symTys : SymTys)
    (gotStr : List (String × Env)) :
    ∀ l, ckStrs loc symTys gotStr l =
      firstError (ckStrItems loc symTys gotStr l) := by
  intro l
  induction l with
  | nil => simp [ckStrs, ckStrItems, firstError]
  | cons p rest ih =>
    obtain ⟨name, wantE⟩ := p
    cases hlk : lookupName name gotStr with
    | none => simp [ckStrs, ckStrItems, firstError, hlk]
    | some gotE =>
      cases hck : ck loc symTys gotE wantE with
      | error e => simp [ckStrs, ckStrItems, firstError, hlk, hck]
      | ok u =>
        cases u
        simp [ckStrs, ckStrItems, firstError, hlk, hck, ih]

theorem ckTys_eq_firstError (loc : Nat) (symTys : SymTys)
    (gotTy : List (String × TyInfo)) :
    ∀ l, ckTys loc symTys gotTy l =
      firstError (ckTyItems loc symTys gotTy l) := by
  intro l
  induction l with
  | nil => simp [ckTys, ckTyItems, firstError]
  | cons p rest ih =>
    obtain ⟨name, wantTI⟩ := p
    cases hlk : lookupName name gotTy with
    | none => simp [ckTys, ckTyItems, firstError, hlk]
    | some gotTI =>
      cases hck : ckTyInfo loc symTys gotTI wantTI with
      | error e => simp [ckTys, ckTyItems, firstError, hlk, hck]
      | ok u =>
        cases u
        simp [ckTys, ckTyItems, firstError, hlk, hck, ih]

theorem ckVals_eq_firstError (loc : Nat) (symTys : SymTys)
    (gotVal : List (String × ValInfo)) :
    ∀ l, ckVals loc symTys gotVal l =
      firstError (ckValItems loc symTys gotVal l) := by
  intro l
  induction l with
  | nil => simp [ckVals, ckValItems, firstError]
  | cons p rest ih =>
    obtain ⟨name, wantVI⟩ := p
    cases hlk : lookupName name gotVal with
    | none => simp [ckVals, ckValItems, firstError, hlk]
    | some gotVI =>
      cases hck : ckValInfo loc symTys gotVI wantVI with
      | error e => simp [ckVals, ckValItems, firstError, hlk, hck]
      | ok u =>
        cases u
        simp [ckVals, ckValItems, firstError, hlk, hck, ih]

end Enrich

/-! ## Theorems for claim C7 -/

/-- Claim C7: the enrichment check examines `want`'s items in the fixed
order structures, then types, then values, each iterated in the
environment's order, and returns the first failure it encounters (or
success if none). The check is a pure function of the sym store and the two
environments: the source takes them by shared reference and performs the
type-function unifications inside a fresh scratch `Subst` created by
`ck_generalizes`, so no shared state is mutated. -/
theorem c7_ck_first_failure_in_fixed_order (loc : Nat)
    (symTys : Enrich.SymTys) (got want : Enrich.Env) :
    Enrich.ck loc symTys got want =
      Enrich.firstError (Enrich.ckItems loc symTys got want) := by
  obtain ⟨gstr, gty, gval⟩ := got
  obtain ⟨wstr, wty, wval⟩ := want
  rw [Enrich.ckItems, Enrich.firstError_append, Enrich.firstError_append,
    ← Enrich.ckStrs_eq_firstError, ← Enrich.ckTys_eq_firstError,
    ← Enrich.ckVals_eq_firstError]
  simp only [Enrich.ck, Enrich.Env.str_env, Enrich.Env.ty_env,
    Enrich.Env.val_env]
  cases hs : Enrich.ckStrs loc symTys gstr wstr with
  | error e => rfl
  | ok u =>
    cases u
    cases ht : Enrich.ckTys loc symTys gty wty with
    | error e => rfl
    | ok u2 => cases u2; rfl

/-! ## Theorems for claim C3 -/

/-- Claim C3: iteration over the environment maps (`TyEnv`, `ValEnv`,
`StrEnv`) is deterministic — a function of the map's contents: two sorted
maps with equal lookups are the same list, ordered insertion preserves
sortedness and has the expected lookups (so a map built by any insert
sequence iterates canonically), and consequently the enrichment check
yields identical error output on equal inputs with equal starting state. -/
theorem c3_env_iteration_deterministic :
    (∀ m1 m2 : List (String × Enrich.TyInfo), SortedKeys m1 → SortedKeys m2 →
      (∀ k, lookupName k m1 = lookupName k m2) → m1 = m2) ∧
    (∀ m1 m2 : List (String × Enrich.ValInfo), SortedKeys m1 →
      SortedKeys m2 → (∀ k, lookupName k m1 = lookupName k m2) → m1 = m2) ∧
    (∀ m1 m2 : List (String × Enrich.Env), SortedKeys m1 → SortedKeys m2 →
      (∀ k, lookupName k m1 = lookupName k m2) → m1 = m2) ∧
    (∀ (α : Type) (k : String) (v : α) (m : List (String × α)),
      SortedKeys m → SortedKeys (insertSorted k v m)) ∧
    (∀ (α : Type) (k j : String) (v : α) (m : List (String × α)),
      lookupName j (insertSorted k v m) =
        if k = j then some v else lookupName j m) ∧
    (∀ (loc : Nat) (symTys : Enrich.SymTys) (g1 w1 g2 w2 : Enrich.Env),
      g1 = g2 → w1 = w2 →
        Enrich.ck loc symTys g1 w1 = Enrich.ck loc symTys g2 w2) := by
  refine ⟨fun m1 m2 => sorted_lookupName_ext m1 m2,
    fun m1 m2 => sorted_lookupName_ext m1 m2,
    fun m1 m2 => sorted_lookupName_ext m1 m2,
    fun α k v m => sortedKeys_insertSorted k v m,
    fun α k j v m => lookupName_insertSorted k j v m, ?_⟩
  intro loc symTys g1 w1 g2 w2 hg hw
  rw [hg, hw]

/-- Witness for C3 at concrete maps: two singleton sorted type environments
with equal lookups are equal, and the enrichment check gives the same result
on two equal runs over empty environments. -/
theorem c3_env_iteration_deterministic_witness :
    [("a", Enrich.TyInfo.sym 0)] = [("a", Enrich.TyInfo.sym 0)] ∧
    Enrich.ck 0 [] (.mk [] [] []) (.mk [] [] []) =
      Enrich.ck 0 [] (.mk [] [] []) (.mk [] [] []) :=
  ⟨c3_env_iteration_deterministic.1 [("a", .sym 0)] [("a", .sym 0)]
      (by simp [SortedKeys]) (by simp [SortedKeys]) (fun k => rfl),
    c3_env_iteration_deterministic.2.2.2.2.2 0 [] (.mk [] [] [])
      (.mk [] [] []) (.mk [] [] []) (.mk [] [] []) rfl rfl⟩

/-! ## Theorems for claim C4 -/

/-- Claim C4 (code bug): at this concrete pair of value entries —
`got : int -> int` monomorphic, `want : forall a. a -> a`, both plain values
— the enrichment value check succeeds even though `got`'s scheme does not
generalize `want`'s. `ck_val_info` passes `(want.ty_scheme, got.ty_scheme)`
to `ck_generalizes`, whose contract is "Ok iff its first argument
generalizes its second", so the subsumption direction is reversed relative
to the Definition and the spec: `want`'s scheme generalizes `got`'s (second
conjunct), while the direction the claim requires fails (third conjunct). -/
theorem c4_ck_val_info_direction_bug :
    Enrich.ckValInfo 0 []
        ⟨⟨0, .fn (.con [] 2) (.con [] 2)⟩, .val⟩
        ⟨⟨1, .fn (.boundVar 0) (.boundVar 0)⟩, .val⟩ = .ok () ∧
    Enrich.generalizes ⟨1, .fn (.boundVar 0) (.boundVar 0)⟩
      ⟨0, .fn (.con [] 2) (.con [] 2)⟩ ∧
    ¬ Enrich.generalizes ⟨0, .fn (.con [] 2) (.con [] 2)⟩
      ⟨1, .fn (.boundVar 0) (.boundVar 0)⟩ := by
  refine ⟨?_, ?_, ?_⟩
  · simp [Enrich.ckValInfo, Enrich.ckGeneralizes, Enrich.mtch, lookupKey,
      insertKey, Enrich.tyBEq, Enrich.listBEq, Enrich.IdStatus.is_val]
  · refine ⟨[.con [] 2], rfl, ?_⟩
    simp [Enrich.instantiateTy, Enrich.instantiateList]
  · rintro ⟨args, hlen, heq⟩
    have hargs : args = [] := List.length_eq_zero.mp hlen
    subst hargs
    simp [Enrich.instantiateTy, Enrich.instantiateList] at heq

/-! ## Theorems for claim C5 -/

/-- Claim C5: `Syms::start(path)` reserves a fresh `Sym` (one past the end of
the store), whose slot holds the placeholder `TyInfo` (zero type scheme over
`Ty::None`, empty constructor value-environment) with `Sometimes` equality,
and the matching `Syms::finish` installs exactly the given `ty_info` and
`equality` at that reserved slot while leaving every other sym slot and
every exception entry unchanged. -/
theorem c5_syms_start_finish_frame (s : SmlStatics.Syms)
    (path : SmlStatics.Path) (ti : SmlStatics.TyInfo)
    (eq : SmlStatics.Equality) :
    (s.start path).2.sym = s.syms.length + 1 ∧
    s.get (s.start path).2.sym = Option.none ∧
    ((s.start path).1).get (s.start path).2.sym =
      some ⟨path, SmlStatics.Syms.placeholderTyInfo, .sometimes⟩ ∧
    (((s.start path).1).finish (s.start path).2 ti eq).get
      (s.start path).2.sym = some ⟨path, ti, eq⟩ ∧
    (∀ y : Nat, y ≠ (s.start path).2.sym →
      (((s.start path).1).finish (s.start path).2 ti eq).get y =
        ((s.start path).1).get y) ∧
    (((s.start path).1).finish (s.start path).2 ti eq).exns = s.exns := by
  refine ⟨by simp [SmlStatics.Syms.start], ?_, ?_, ?_, ?_, rfl⟩
  · simp [SmlStatics.Syms.start, SmlStatics.Syms.get, SmlStatics.Sym.idx,
      SmlStatics.Sym.EXN, List.getElem?_eq_none (le_refl s.syms.length)]
  · simp [SmlStatics.Syms.start, SmlStatics.Syms.get, SmlStatics.Sym.idx,
      SmlStatics.Sym.EXN, List.getElem?_concat_length]
  · simp [SmlStatics.Syms.start, SmlStatics.Syms.finish, SmlStatics.Syms.get,
      SmlStatics.Sym.idx, SmlStatics.Sym.EXN, modifyAt_getElem_self,
      List.getElem?_concat_length]
  · intro y hy
    by_cases h0 : y = 0
    · simp [h0, SmlStatics.Syms.get, SmlStatics.Sym.EXN]
    · have hsym : (s.start path).2.sym = s.syms.length + 1 := by
        simp [SmlStatics.Syms.start]
      have hidx : y - 1 ≠ SmlStatics.Sym.idx (s.start path).2.sym := by
        rw [hsym]
        unfold SmlStatics.Sym.idx
        omega
      simp [SmlStatics.Syms.finish, SmlStatics.Syms.get, SmlStatics.Sym.EXN,
        h0, SmlStatics.Sym.idx, modifyAt_getElem_ne _ _ _ _
          (by simpa [SmlStatics.Sym.idx] using hidx)]

/-- Witness for C5 at a concrete store: starting a sym on the empty store and
finishing it installs the given info, and slot 5 (not the started handle) is
unchanged by the finish. -/
theorem c5_syms_start_finish_frame_witness :
    ((((SmlStatics.Syms.mk [] [] ⟨[], [], [], [], []⟩).start ["t"]).1.finish
        ((SmlStatics.Syms.mk [] [] ⟨[], [], [], [], []⟩).start ["t"]).2
        SmlStatics.Syms.placeholderTyInfo .always).get 5) =
      ((((SmlStatics.Syms.mk [] [] ⟨[], [], [], [], []⟩).start ["t"]).1).get
        5) :=
  (c5_syms_start_finish_frame (SmlStatics.Syms.mk [] [] ⟨[], [], [], [], []⟩)
    ["t"] SmlStatics.Syms.placeholderTyInfo .always).2.2.2.2.1 5 (by decide)

/-! ## Theorems for claim C6 -/

/-- Claim C6: the primitive type constructors occupy reserved `Sym` slots in
the documented order `EXN, INT, WORD, REAL, CHAR, STRING, BOOL, LIST, REF`,
with `Sym::EXN` at slot 0; `Sym::primitive` recognizes exactly these nine
reserved slots, so each primitive's numeric identity is a fixed constant. -/
theorem c6_primitive_sym_slots :
    SmlStatics.Sym.EXN = 0 ∧ SmlStatics.Sym.INT = 1 ∧
    SmlStatics.Sym.WORD = 2 ∧ SmlStatics.Sym.REAL = 3 ∧
    SmlStatics.Sym.CHAR = 4 ∧ SmlStatics.Sym.STRING = 5 ∧
    SmlStatics.Sym.BOOL = 6 ∧ SmlStatics.Sym.LIST = 7 ∧
    SmlStatics.Sym.REF = 8 ∧
    (List.range 9).map SmlStatics.Sym.primitive =
      [some .exn, some .int, some .word, some .real, some .char,
        some .string, some .bool, some .list, some .refTy] ∧
    (∀ y : Nat, 9 ≤ y → SmlStatics.Sym.primitive y = Option.none) := by
  refine ⟨rfl, rfl, rfl, rfl, rfl, rfl, rfl, rfl, rfl, by decide, ?_⟩
  intro y hy
  unfold SmlStatics.Sym.primitive SmlStatics.Sym.EXN SmlStatics.Sym.INT
    SmlStatics.Sym.WORD SmlStatics.Sym.REAL SmlStatics.Sym.CHAR
    SmlStatics.Sym.STRING SmlStatics.Sym.BOOL SmlStatics.Sym.LIST
    SmlStatics.Sym.REF
  repeat rw [if_neg (by omega)]

/-- Witness for C6: slot 9, the first non-reserved slot, is not primitive. -/
theorem c6_primitive_sym_slots_witness :
    SmlStatics.Sym.primitive 9 = Option.none :=
  c6_primitive_sym_slots.2.2.2.2.2.2.2.2.2.2 9 (by decide)

/-! ## Theorems for claim C8 -/

/-- Claim C8: a sym allocated by `Syms::start` after `Syms::mark` produced a
marker is `generated_after` that marker (after any interleaving of store
operations); a sym that already had a slot when the marker was taken is not;
and `Sym::EXN` is never generated after any marker. -/
theorem c8_generated_after_iff_allocated_after_mark (s : SmlStatics.Syms)
    (ops : List SmlStatics.SymsOp) (path : SmlStatics.Path) :
    SmlStatics.Sym.generated_after ((s.applyOps ops).start path).2.sym
      s.mark = true ∧
    (∀ y : Nat, y ≠ SmlStatics.Sym.EXN → SmlStatics.Sym.idx y < s.mark →
      SmlStatics.Sym.generated_after y s.mark = false) ∧
    SmlStatics.Sym.generated_after SmlStatics.Sym.EXN s.mark = false := by
  refine ⟨?_, ?_, ?_⟩
  · have hmono := SmlStatics.Syms.syms_length_applyOps s ops
    simp [SmlStatics.Sym.generated_after, SmlStatics.Sym.idx,
      SmlStatics.Sym.EXN, SmlStatics.Syms.start, SmlStatics.Syms.mark]
    omega
  · intro y hy hidx
    simp only [SmlStatics.Sym.EXN] at hy
    simp only [SmlStatics.Sym.idx] at hidx
    simp [SmlStatics.Sym.generated_after, SmlStatics.Sym.idx,
      SmlStatics.Sym.EXN, hy]
    omega
  · rfl

/-- Witness for C8 at a concrete store holding one sym: the sym started
after the mark is generated after it, and the pre-existing sym 1 is not. -/
theorem c8_generated_after_iff_allocated_after_mark_witness :
    SmlStatics.Sym.generated_after
        (((SmlStatics.Syms.mk
            [⟨["t"], SmlStatics.Syms.placeholderTyInfo, .sometimes⟩] []
            ⟨[], [], [], [], []⟩).applyOps []).start ["u"]).2.sym
        (SmlStatics.Syms.mk
          [⟨["t"], SmlStatics.Syms.placeholderTyInfo, .sometimes⟩] []
          ⟨[], [], [], [], []⟩).mark = true ∧
    SmlStatics.Sym.generated_after 1
        (SmlStatics.Syms.mk
          [⟨["t"], SmlStatics.Syms.placeholderTyInfo, .sometimes⟩] []
          ⟨[], [], [], [], []⟩).mark = false :=
  ⟨(c8_generated_after_iff_allocated_after_mark
      (SmlStatics.Syms.mk
        [⟨["t"], SmlStatics.Syms.placeholderTyInfo, .sometimes⟩] []
        ⟨[], [], [], [], []⟩) [] ["u"]).1,
    (c8_generated_after_iff_allocated_after_mark
      (SmlStatics.Syms.mk
        [⟨["t"], SmlStatics.Syms.placeholderTyInfo, .sometimes⟩] []
        ⟨[], [], [], [], []⟩) [] ["u"]).2.1 1 (by decide) (by decide)⟩

/-! ## Theorems for claim C10 -/

/-- Claim C10: `Syms::get(Sym::EXN)` is `None`; a sym returned by `start`
is retrievable right away (holding the placeholder); and allocation is
append-only — an existing sym's slot is unaffected by a later `start`, by a
`finish` of a different handle (handles are non-zero, as `start` only hands
out positive syms), or by an `insert_exn`. -/
theorem c10_syms_get_append_only (s : SmlStatics.Syms) :
    s.get SmlStatics.Sym.EXN = Option.none ∧
    (∀ path, ((s.start path).1).get (s.start path).2.sym =
      some ⟨path, SmlStatics.Syms.placeholderTyInfo, .sometimes⟩) ∧
    (∀ (y : Nat) (i : SmlStatics.SymInfo), s.get y = some i →
      (∀ path, ((s.start path).1).get y = some i) ∧
      (∀ (st : SmlStatics.StartedSym) (ti : SmlStatics.TyInfo)
          (eq : SmlStatics.Equality),
        st.sym ≠ SmlStatics.Sym.EXN → st.sym ≠ y →
          (s.finish st ti eq).get y = some i) ∧
      (∀ path param, ((s.insert_exn path param).1).get y = some i)) := by
  refine ⟨by simp [SmlStatics.Syms.get], ?_, ?_⟩
  · intro path
    simp [SmlStatics.Syms.start, SmlStatics.Syms.get, SmlStatics.Sym.idx,
      SmlStatics.Sym.EXN, List.getElem?_concat_length]
  · intro y i hget
    rw [SmlStatics.Syms.get_eq_some_iff] at hget
    obtain ⟨hy0, hslot⟩ := hget
    have hlt : y - 1 < s.syms.length := by
      by_contra hge
      rw [List.getElem?_eq_none (by omega)] at hslot
      exact Option.noConfusion hslot
    refine ⟨?_, ?_, ?_⟩
    · intro path
      rw [SmlStatics.Syms.get_eq_some_iff]
      refine ⟨hy0, ?_⟩
      simpa [SmlStatics.Syms.start, List.getElem?_append_left hlt] using hslot
    · intro st ti eq hst0 hsty
      rw [SmlStatics.Syms.get_eq_some_iff]
      refine ⟨hy0, ?_⟩
      have hne : y - 1 ≠ SmlStatics.Sym.idx st.sym := by
        simp only [SmlStatics.Sym.EXN] at hst0
        unfold SmlStatics.Sym.idx
        omega
      simpa [SmlStatics.Syms.finish, modifyAt_getElem_ne _ _ _ _ hne]
        using hslot
    · intro path param
      rw [SmlStatics.Syms.get_eq_some_iff]
      exact ⟨hy0, by simpa [SmlStatics.Syms.insert_exn] using hslot⟩

/-- Witness for C10 at a concrete store holding sym 1: sym 1 stays
retrievable and unchanged across a later `start`, a `finish` of handle 2,
and an `insert_exn`. -/
theorem c10_syms_get_append_only_witness :
    (((SmlStatics.Syms.mk
        [⟨["t"], SmlStatics.Syms.placeholderTyInfo, .sometimes⟩] []
        ⟨[], [], [], [], []⟩).start ["u"]).1.get 1 =
      some ⟨["t"], SmlStatics.Syms.placeholderTyInfo, .sometimes⟩) ∧
    ((SmlStatics.Syms.mk
        [⟨["t"], SmlStatics.Syms.placeholderTyInfo, .sometimes⟩] []
        ⟨[], [], [], [], []⟩).finish ⟨2⟩ SmlStatics.Syms.placeholderTyInfo
        .always).get 1 =
      some ⟨["t"], SmlStatics.Syms.placeholderTyInfo, .sometimes⟩ :=
  ⟨((c10_syms_get_append_only
      (SmlStatics.Syms.mk
        [⟨["t"], SmlStatics.Syms.placeholderTyInfo, .sometimes⟩] []
        ⟨[], [], [], [], []⟩)).2.2 1
      ⟨["t"], SmlStatics.Syms.placeholderTyInfo, .sometimes⟩ rfl).1 ["u"],
    ((c10_syms_get_append_only
      (SmlStatics.Syms.mk
        [⟨["t"], SmlStatics.Syms.placeholderTyInfo, .sometimes⟩] []
        ⟨[], [], [], [], []⟩)).2.2 1
      ⟨["t"], SmlStatics.Syms.placeholderTyInfo, .sometimes⟩ rfl).2.1
      ⟨2⟩ SmlStatics.Syms.placeholderTyInfo .always (by decide) (by decide)⟩

end Millet
